import Mathlib

/-!
Formal model of the embedding → projection → similarity-filter pipeline of the
GitHub-Explorer repository (`src/src/embedding.py`, `src/app.py`).

Numeric conventions: Python ints are `ℤ` (so that `n_samples - 1` may be negative),
vector entries are `ℚ` for the shape-level pipeline and `ℝ` where cosine similarity
(and hence square roots) are involved.  External collaborators that are not part of
the repository (`sklearn.manifold.TSNE`, `sklearn.metrics.pairwise.cosine_similarity`)
are modelled from the spec's stated contracts and marked as such.
-/

namespace GithubExplorer

/-- Constant `TSNE_PERPLEXITY = 5` from `src/config.py` line 68. -/
def TSNE_PERPLEXITY : ℤ := 5

/-- Embedding dimensionality of the remote Gemini backend (`text-embedding-004`):
the zero-vector fallback in `create_embeddings_gemini` appends `[0.0] * 768`
(`src/src/embedding.py` line 124). -/
def GEMINI_EMBEDDING_DIM : ℕ := 768

/-- Embeds `create_embeddings_gemini` (`src/src/embedding.py` lines 91–129).
The remote endpoint is called once per text inside a `try`; we model the sequence of
per-text outcomes as a list of `Option`s, index-aligned with the input texts:
`some v` when `genai.embed_content` returned the vector `v`, `none` when the call
raised.  The `except` branch appends `[0.0] * 768` in place of the failed text, so the
function is total over the outcomes and never re-raises. -/
def create_embeddings_gemini (results : List (Option (List ℚ))) : List (List ℚ) :=
  results.map (fun r => r.getD (List.replicate GEMINI_EMBEDDING_DIM 0))

/-- The two embedding backends dispatched by `create_embeddings`. -/
inductive Backend
  | localModel
  | geminiApi
deriving DecidableEq

/-- Embeds the backend-selection head of `create_embeddings`
(`src/src/embedding.py` lines 132–157).  `method` is the optional `method` argument
(`some ""` models passing an empty string, which is falsy in Python, so
`method or EMBEDDING_METHOD` falls back to the configured value);
`embeddingMethodConfig` is the `EMBEDDING_METHOD` configuration value.
The result is which backend the dispatch reaches, or the `ValueError` raised by the
final `else` — selection happens before any model or network work. -/
def create_embeddings (method : Option String) (embeddingMethodConfig : String) :
    Except String Backend :=
  let selectedMethod :=
    match method with
    | none => embeddingMethodConfig
    | some m => if m = "" then embeddingMethodConfig else m
  if selectedMethod = "local" then Except.ok Backend.localModel
  else if selectedMethod = "gemini" then Except.ok Backend.geminiApi
  else Except.error ("Unsupported embedding method: " ++ selectedMethod)

/-- Modelled from the spec: `sklearn.manifold.TSNE(...).fit_transform` is an external
collaborator, not code of this repository.  Per spec §4.3 it fails on an empty batch
(`ReductionError` when `n == 0`, "no defined projection of an empty set") and requires
the neighborhood parameter to be strictly smaller than the sample count; otherwise it
deterministically (fixed `random_state`) returns one `(x, y)` coordinate per input row.
The coordinate values themselves are unspecified by the spec, so the model emits a
deterministic per-row placeholder. -/
def tsne_fit_transform (perplexity : ℤ) (embeddings : List (List ℚ)) :
    Except String (List (ℚ × ℚ)) :=
  if embeddings.length = 0 then
    Except.error ("ReductionError: no defined projection of an empty set")
  else if (embeddings.length : ℤ) ≤ perplexity then
    Except.error ("perplexity must be less than n_samples")
  else
    Except.ok (embeddings.map (fun v => (v.headD 0, (v.drop 1).headD 0)))

/-- Embeds the perplexity computation of `reduce_dimensions`
(`src/src/embedding.py` lines 178–185): when no perplexity is supplied it is
auto-tuned to `min(TSNE_PERPLEXITY, max(2, n_samples // 10))`, and in every case it is
then clamped by `perplexity = min(perplexity, n_samples - 1)`. -/
def effectivePerplexity (n : ℕ) (perplexity : Option ℤ) : ℤ :=
  let p : ℤ :=
    match perplexity with
    | none => min TSNE_PERPLEXITY (max 2 ((n : ℤ) / 10))
    | some p0 => p0
  min p ((n : ℤ) - 1)

/-- Embeds `reduce_dimensions` with the default `method='tsne'`
(`src/src/embedding.py` lines 160–204): compute the effective perplexity, then hand the
batch to the t-SNE collaborator. -/
def reduce_dimensions (embeddings : List (List ℚ)) (perplexity : Option ℤ) :
    Except String (List (ℚ × ℚ)) :=
  tsne_fit_transform (effectivePerplexity embeddings.length perplexity) embeddings

/-- Ordering realized by `df.nlargest(k, 'similarity')` in `src/app.py` line 238 on
`(original index, score)` rows: descending score, and between equal scores the earlier
original index first — pandas' documented `keep='first'` behavior.  On rows with
pairwise-distinct indices this is a linear order, so the sorted sequence is unique and
any stable implementation realizes exactly it. -/
def rankRel {α : Type} [LinearOrder α] (a b : ℕ × α) : Prop :=
  b.2 < a.2 ∨ (a.2 = b.2 ∧ a.1 ≤ b.1)

instance {α : Type} [LinearOrder α] : DecidableRel (@rankRel α _) := fun a b => by
  unfold rankRel
  infer_instance

instance {α : Type} [LinearOrder α] : IsTrans (ℕ × α) rankRel where
  trans a b c hab hbc := by
    rcases hab with h | ⟨h1, h2⟩ <;> rcases hbc with h' | ⟨h1', h2'⟩
    · exact Or.inl (h'.trans h)
    · exact Or.inl (h1' ▸ h)
    · exact Or.inl (h1 ▸ h')
    · exact Or.inr ⟨h1.trans h1', h2.trans h2'⟩

instance {α : Type} [LinearOrder α] : IsTotal (ℕ × α) rankRel where
  total a b := by
    rcases lt_trichotomy a.2 b.2 with h | h | h
    · exact Or.inr (Or.inl h)
    · rcases le_total a.1 b.1 with h' | h'
      · exact Or.inl (Or.inr ⟨h, h'⟩)
      · exact Or.inr (Or.inr ⟨h.symm, h'⟩)
    · exact Or.inl (Or.inl h)

instance {α : Type} [LinearOrder α] : IsAntisymm (ℕ × α) rankRel where
  antisymm a b hab hba := by
    rcases hab with h | ⟨h1, h2⟩
    · rcases hba with h' | ⟨h1', h2'⟩
      · exact absurd (h.trans h') (lt_irrefl _)
      · exact absurd h (h1' ▸ lt_irrefl _)
    · rcases hba with h' | ⟨h1', h2'⟩
      · exact absurd h' (h1 ▸ lt_irrefl _)
      · exact Prod.ext (le_antisymm h2 h2') h1

/-- The stable descending sort of the `(index, score)` rows performed inside
`df.nlargest` before truncation. -/
def sortPairs {α : Type} [LinearOrder α] (scores : List α) : List (ℕ × α) :=
  scores.enum.insertionSort rankRel

/-- Embeds `df.nlargest(min(keep, n), 'similarity')` (`src/app.py` line 238): the
`(original index, score)` rows, stably sorted by descending score, truncated to the
top `min(keep, n)`. -/
def rank {α : Type} [LinearOrder α] (scores : List α) (keep : ℕ) : List (ℕ × α) :=
  (sortPairs scores).take (min keep scores.length)

/-- Embeds `filtered_indices = df_filtered.index.tolist()` (`src/app.py` line 241):
the original indices of the kept rows, in ranked order. -/
def rankIndices {α : Type} [LinearOrder α] (scores : List α) (keep : ℕ) : List ℕ :=
  (rank scores keep).map Prod.fst

/-- Embeds the positional gather `embeddings[filtered_indices]` (and the identical
row-subset of the record table) of `src/app.py` lines 238–242.  In the app the
indices are always in range, so the default `d` is never read. -/
def gather {β : Type} (l : List β) (d : β) (idxs : List ℕ) : List β :=
  idxs.map (fun i => l.getD i d)

/-- Dot product of two real vectors (componentwise, trailing entries ignored). -/
def dot : List ℝ → List ℝ → ℝ
  | a :: v, b :: w => a * b + dot v w
  | _, _ => 0

/-- Squared Euclidean norm of a real vector. -/
def normSq (v : List ℝ) : ℝ := dot v v

/-- Modelled from the spec: `sklearn.metrics.pairwise.cosine_similarity` is an external
collaborator, not code of this repository.  Spec §4.4: the score is
`dot(v, q) / (‖v‖ * ‖q‖)`, defined as `0` when either norm is zero (no
division-by-zero error is raised). -/
noncomputable def cossim (v q : List ℝ) : ℝ :=
  if normSq v = 0 ∨ normSq q = 0 then 0
  else dot v q / (Real.sqrt (normSq v) * Real.sqrt (normSq q))

/-! ### Helper lemmas about the ranking step -/

theorem rank_eq_take {α : Type} [LinearOrder α] (scores : List α) (keep : ℕ) :
    rank scores keep = (sortPairs scores).take (min keep scores.length) := rfl

theorem sortPairs_perm {α : Type} [LinearOrder α] (scores : List α) :
    (sortPairs scores).Perm scores.enum :=
  List.perm_insertionSort _ _

theorem sortPairs_sorted {α : Type} [LinearOrder α] (scores : List α) :
    List.Sorted rankRel (sortPairs scores) :=
  List.sorted_insertionSort _ _

theorem sortPairs_length {α : Type} [LinearOrder α] (scores : List α) :
    (sortPairs scores).length = scores.length := by
  rw [sortPairs, List.length_insertionSort, List.enum_length]

theorem mem_sortPairs {α : Type} [LinearOrder α] {scores : List α} {p : ℕ × α} :
    p ∈ sortPairs scores ↔ scores[p.1]? = some p.2 := by
  rw [sortPairs, List.mem_insertionSort, List.mem_enum_iff_getElem?]

theorem sortPairs_pairwise_ne {α : Type} [LinearOrder α] (scores : List α) :
    (sortPairs scores).Pairwise (fun a b => a.1 ≠ b.1) := by
  have h1 : ((sortPairs scores).map Prod.fst).Nodup :=
    (((sortPairs_perm scores).map Prod.fst).nodup_iff).mpr
      (List.nodup_enum_map_fst scores)
  exact List.pairwise_map.mp h1

theorem sortPairs_pairwise_strict {α : Type} [LinearOrder α] (scores : List α) :
    (sortPairs scores).Pairwise
      (fun a b => b.2 < a.2 ∨ (a.2 = b.2 ∧ a.1 < b.1)) := by
  have h := ((sortPairs_sorted scores).and (sortPairs_pairwise_ne scores))
  refine h.imp ?_
  rintro a b ⟨hr | ⟨heq, hle⟩, hne⟩
  · exact Or.inl hr
  · exact Or.inr ⟨heq, lt_of_le_of_ne hle hne⟩

theorem rank_length {α : Type} [LinearOrder α] (scores : List α) (keep : ℕ) :
    (rank scores keep).length = min keep scores.length := by
  rw [rank_eq_take, List.length_take, sortPairs_length]
  omega

theorem mem_rank {α : Type} [LinearOrder α] {scores : List α} {keep : ℕ} {p : ℕ × α}
    (hp : p ∈ rank scores keep) : scores[p.1]? = some p.2 :=
  mem_sortPairs.mp (List.mem_of_mem_take hp)

theorem rank_pairwise_strict {α : Type} [LinearOrder α] (scores : List α) (keep : ℕ) :
    (rank scores keep).Pairwise
      (fun a b => b.2 < a.2 ∨ (a.2 = b.2 ∧ a.1 < b.1)) :=
  (sortPairs_pairwise_strict scores).sublist (List.take_sublist _ _)

theorem rank_dominance {α : Type} [LinearOrder α] {scores : List α} {keep : ℕ}
    {q : ℕ × α} (hq : scores[q.1]? = some q.2) (hq' : q ∉ rank scores keep) :
    ∀ p ∈ rank scores keep, q.2 < p.2 ∨ (p.2 = q.2 ∧ p.1 < q.1) := by
  intro p hp
  have hsp : q ∈ sortPairs scores := mem_sortPairs.mpr hq
  have hsplit : (sortPairs scores).take (min keep scores.length) ++
      (sortPairs scores).drop (min keep scores.length) = sortPairs scores :=
    List.take_append_drop _ _
  have hpw := sortPairs_pairwise_strict scores
  rw [← hsplit] at hpw
  obtain ⟨-, -, hcross⟩ := List.pairwise_append.mp hpw
  have hqdrop : q ∈ (sortPairs scores).drop (min keep scores.length) := by
    rw [← hsplit] at hsp
    rcases List.mem_append.mp hsp with h | h
    · exact absurd h hq'
    · exact h
  exact hcross p hp q hqdrop

theorem rank_head_max {α : Type} [LinearOrder α] {scores : List α} {keep k : ℕ}
    {m : α} (hkeep : 1 ≤ keep) (htop : scores[k]? = some m)
    (hle : ∀ x ∈ scores, x ≤ m)
    (hfirst : ∀ i, i < k → ∀ x, scores[i]? = some x → x ≠ m) :
    (rank scores keep).head? = some (k, m) := by
  have hklt : k < scores.length := (List.getElem?_eq_some.mp htop).1
  have hn : 1 ≤ scores.length := by omega
  have hlen : (sortPairs scores).length = scores.length := sortPairs_length scores
  obtain ⟨h0, t, hcons⟩ : ∃ h0 t, sortPairs scores = h0 :: t := by
    cases hsp : sortPairs scores with
    | nil => rw [hsp] at hlen; simp at hlen; omega
    | cons a t => exact ⟨a, t, rfl⟩
  have hmem : h0 ∈ sortPairs scores := by rw [hcons]; exact List.mem_cons_self _ _
  have hh0 : scores[h0.1]? = some h0.2 := mem_sortPairs.mp hmem
  have hh0le : h0.2 ≤ m := hle _ (List.getElem?_mem hh0)
  have hkm : (k, m) ∈ sortPairs scores := mem_sortPairs.mpr htop
  have heq : h0 = (k, m) := by
    rw [hcons] at hkm
    rcases List.mem_cons.mp hkm with h | h
    · exact h.symm
    · have hs := sortPairs_sorted scores
      rw [hcons] at hs
      have hrel : rankRel h0 (k, m) := List.rel_of_sorted_cons hs _ h
      rcases hrel with hlt | ⟨heq2, hle2⟩
      · exact absurd hlt (not_lt.mpr hh0le)
      · rcases lt_or_eq_of_le hle2 with hlt2 | heqk
        · exact absurd heq2 (hfirst h0.1 hlt2 h0.2 hh0)
        · exact Prod.ext heqk heq2
  have hmin : 1 ≤ min keep scores.length := by omega
  rw [rank_eq_take, hcons]
  obtain ⟨j, hj⟩ : ∃ j, min keep scores.length = j + 1 := ⟨min keep scores.length - 1, by omega⟩
  rw [hj, List.take_succ_cons, heq]
  rfl

theorem gather_length {β : Type} (l : List β) (d : β) (idxs : List ℕ) :
    (gather l d idxs).length = idxs.length := by
  rw [gather, List.length_map]

theorem gather_getD {β : Type} (l : List β) (d : β) (idxs : List ℕ) (j : ℕ)
    (hj : j < idxs.length) :
    (gather l d idxs).getD j d = l.getD (idxs.getD j 0) d := by
  have h1 : idxs.getD j 0 = idxs[j] := by
    rw [List.getD_eq_getElem?_getD, List.getElem?_eq_getElem hj]
    rfl
  rw [gather, h1, List.getD_eq_getElem?_getD, List.getElem?_map,
    List.getElem?_eq_getElem hj]
  rfl

theorem effectivePerplexity_lt (n : ℕ) (hn : 1 ≤ n) (p : Option ℤ) :
    effectivePerplexity n p < (n : ℤ) := by
  have h : effectivePerplexity n p ≤ (n : ℤ) - 1 := min_le_right _ _
  omega

theorem reduce_dimensions_ok (embeddings : List (List ℚ))
    (hn : 1 ≤ embeddings.length) (p : Option ℤ) :
    ∃ coords, reduce_dimensions embeddings p = Except.ok coords ∧
      coords.length = embeddings.length := by
  refine ⟨embeddings.map (fun v => (v.headD 0, (v.drop 1).headD 0)), ?_, by simp⟩
  rw [reduce_dimensions, tsne_fit_transform,
    if_neg (by omega), if_neg (not_le.mpr (effectivePerplexity_lt _ hn p))]

/-! ### Helper lemmas about cosine similarity -/

theorem dot_nil_left (w : List ℝ) : dot [] w = 0 := by cases w <;> rfl

theorem dot_nil_right (v : List ℝ) : dot v [] = 0 := by cases v <;> rfl

theorem dot_cons (a b : ℝ) (v w : List ℝ) :
    dot (a :: v) (b :: w) = a * b + dot v w := rfl

theorem normSq_nonneg (v : List ℝ) : 0 ≤ normSq v := by
  induction v with
  | nil => norm_num [normSq, dot]
  | cons a v ih => exact add_nonneg (mul_self_nonneg a) ih

theorem dot_sq_le (v w : List ℝ) : dot v w ^ 2 ≤ normSq v * normSq w := by
  induction v generalizing w with
  | nil =>
    rw [dot_nil_left]
    norm_num [normSq, dot_nil_left]
  | cons a v ih =>
    cases w with
    | nil =>
      rw [dot_nil_right]
      norm_num [normSq, dot_nil_right]
    | cons b w =>
      have h := ih w
      have hA := normSq_nonneg v
      have hB := normSq_nonneg w
      show (a * b + dot v w) ^ 2 ≤ (a * a + dot v v) * (b * b + dot w w)
      have hA' : (0 : ℝ) ≤ dot v v := hA
      have hB' : (0 : ℝ) ≤ dot w w := hB
      have h' : dot v w ^ 2 ≤ dot v v * dot w w := h
      rcases eq_or_lt_of_le hA' with hA0 | hApos
      · have h2 : dot v w ^ 2 ≤ 0 := by
          rw [← hA0] at h'
          simpa using h'
        have hd2 : dot v w ^ 2 = 0 := le_antisymm h2 (sq_nonneg _)
        have hd0 : dot v w = 0 := by
          exact (pow_eq_zero_iff two_ne_zero).mp hd2
        rw [hd0, ← hA0]
        nlinarith [mul_nonneg (mul_self_nonneg a) hB']
      · nlinarith [sq_nonneg (a * dot v w - dot v v * b),
          mul_nonneg (add_nonneg (sq_nonneg a) hA') (sub_nonneg.mpr h'), hApos]

theorem cossim_le_one (v q : List ℝ) : cossim v q ≤ 1 := by
  rw [cossim]
  by_cases h : normSq v = 0 ∨ normSq q = 0
  · rw [if_pos h]
    norm_num
  · rw [if_neg h]
    push_neg at h
    have hv : 0 < normSq v := lt_of_le_of_ne (normSq_nonneg v) (Ne.symm h.1)
    have hq : 0 < normSq q := lt_of_le_of_ne (normSq_nonneg q) (Ne.symm h.2)
    have hden : 0 < Real.sqrt (normSq v) * Real.sqrt (normSq q) :=
      mul_pos (Real.sqrt_pos.mpr hv) (Real.sqrt_pos.mpr hq)
    rw [div_le_one hden]
    calc dot v q ≤ |dot v q| := le_abs_self _
      _ = Real.sqrt (dot v q ^ 2) := (Real.sqrt_sq_eq_abs _).symm
      _ ≤ Real.sqrt (normSq v * normSq q) := Real.sqrt_le_sqrt (dot_sq_le v q)
      _ = Real.sqrt (normSq v) * Real.sqrt (normSq q) :=
        Real.sqrt_mul (normSq_nonneg v) _

theorem cossim_self (q : List ℝ) (hq : normSq q ≠ 0) : cossim q q = 1 := by
  rw [cossim, if_neg (by tauto)]
  rw [show dot q q = normSq q from rfl,
    Real.mul_self_sqrt (normSq_nonneg q)]
  exact div_self hq

/-! ### The claims -/

/-- C1: with the remote (Gemini) backend, a failed per-text call is recovered by
substituting the 768-dimensional zero vector for that text instead of aborting the
batch: the output has exactly one vector per input text, dimensionality is uniform
across the batch, and every failed position holds the zero vector; no failure is
surfaced (the embedding function is total over the per-text outcomes). -/
theorem c1_gemini_partial_failure (results : List (Option (List ℚ)))
    (hne : results ≠ [])
    (hdim : ∀ v : List ℚ, some v ∈ results → v.length = GEMINI_EMBEDDING_DIM) :
    (create_embeddings_gemini results).length = results.length ∧
    (∀ w ∈ create_embeddings_gemini results, w.length = GEMINI_EMBEDDING_DIM) ∧
    (∀ i : ℕ, i < results.length → results.getD i none = none →
      (create_embeddings_gemini results).getD i [] =
        List.replicate GEMINI_EMBEDDING_DIM 0) := by
  refine ⟨List.length_map _ _, ?_, ?_⟩
  · intro w hw
    rcases List.mem_map.mp hw with ⟨r, hr, rfl⟩
    cases r with
    | none => simp
    | some v => simpa using hdim v hr
  · intro i hi hnone
    have hi' : i < (create_embeddings_gemini results).length := by
      simpa [create_embeddings_gemini] using hi
    rw [List.getD_eq_getElem?_getD, List.getElem?_eq_getElem hi']
    have hr : results[i] = none := by
      rw [List.getD_eq_getElem?_getD, List.getElem?_eq_getElem hi] at hnone
      simpa using hnone
    simp [create_embeddings_gemini, hr]

set_option maxRecDepth 4000 in
/-- Witness for C1: two texts, the second remote call fails; the output has one row per
text, every row has length 768, and the failed position is the zero vector. -/
theorem c1_witness :
    (create_embeddings_gemini [some (List.replicate 768 (1 : ℚ)), none]).length =
      ([some (List.replicate 768 (1 : ℚ)), none] : List (Option (List ℚ))).length ∧
    (∀ w ∈ create_embeddings_gemini [some (List.replicate 768 (1 : ℚ)), none],
      w.length = GEMINI_EMBEDDING_DIM) ∧
    (∀ i : ℕ, i < ([some (List.replicate 768 (1 : ℚ)), none] :
        List (Option (List ℚ))).length →
      ([some (List.replicate 768 (1 : ℚ)), none] : List (Option (List ℚ))).getD i none =
        none →
      (create_embeddings_gemini [some (List.replicate 768 (1 : ℚ)), none]).getD i [] =
        List.replicate GEMINI_EMBEDDING_DIM 0) := by
  refine c1_gemini_partial_failure _ (List.cons_ne_nil _ _) ?_
  intro v hv
  rw [List.mem_cons, List.mem_singleton] at hv
  have hv' : v = List.replicate 768 (1 : ℚ) := by
    rcases hv with h | h
    · exact Option.some.inj h
    · exact Option.noConfusion h
  rw [hv']
  simp [GEMINI_EMBEDDING_DIM]

/-- C3: with no caller-supplied perplexity, `reduce_dimensions` computes
`p = min(TSNE_PERPLEXITY, max(2, n // 10))` and then clamps it to `min(p, n - 1)`, so
the parameter actually used is always strictly less than the sample count `n ≥ 1`. -/
theorem c3_auto_perplexity_clamp (n : ℕ) (hn : 1 ≤ n) :
    effectivePerplexity n none =
      min (min TSNE_PERPLEXITY (max 2 ((n : ℤ) / 10))) ((n : ℤ) - 1) ∧
    effectivePerplexity n none < (n : ℤ) :=
  ⟨rfl, effectivePerplexity_lt n hn none⟩

/-- Witness for C3 at the sample counts named by the spec: `n ∈ {1, 2, 5, 50}`. -/
theorem c3_witness :
    effectivePerplexity 1 none < ((1 : ℕ) : ℤ) ∧
    effectivePerplexity 2 none < ((2 : ℕ) : ℤ) ∧
    effectivePerplexity 5 none < ((5 : ℕ) : ℤ) ∧
    effectivePerplexity 50 none < ((50 : ℕ) : ℤ) :=
  ⟨(c3_auto_perplexity_clamp 1 (by norm_num)).2,
   (c3_auto_perplexity_clamp 2 (by norm_num)).2,
   (c3_auto_perplexity_clamp 5 (by norm_num)).2,
   (c3_auto_perplexity_clamp 50 (by norm_num)).2⟩

/-- C10: a caller-supplied (explicit) perplexity `p0` is clamped unconditionally:
`reduce_dimensions` hands `min(p0, n - 1)` to the underlying algorithm, which is
strictly less than `n` for every `n ≥ 1` — an oversized caller value is silently
reduced, never rejected. -/
theorem c10_explicit_perplexity_clamp (p0 : ℤ) (n : ℕ) (hn : 1 ≤ n) :
    effectivePerplexity n (some p0) = min p0 ((n : ℤ) - 1) ∧
    effectivePerplexity n (some p0) < (n : ℤ) :=
  ⟨rfl, effectivePerplexity_lt n hn (some p0)⟩

/-- Witness for C10: an explicit perplexity of 100 on a batch of 5 is clamped to 4. -/
theorem c10_witness :
    effectivePerplexity 5 (some 100) = min (100 : ℤ) (((5 : ℕ) : ℤ) - 1) ∧
    effectivePerplexity 5 (some 100) < ((5 : ℕ) : ℤ) :=
  c10_explicit_perplexity_clamp 100 5 (by norm_num)

/-- C4: on a single-row batch (`n == 1`), `reduce_dimensions` succeeds and returns
exactly one coordinate pair: the auto-tuned perplexity collapses to
`min(min(5, max(2, 0)), 0) = 0`, which satisfies the algorithm's
parameter-below-sample-count precondition. -/
theorem c4_single_row_reduce (embeddings : List (List ℚ))
    (h1 : embeddings.length = 1) :
    ∃ c : ℚ × ℚ, reduce_dimensions embeddings none = Except.ok [c] := by
  obtain ⟨coords, hok, hlen⟩ := reduce_dimensions_ok embeddings (by omega) none
  rw [h1] at hlen
  obtain ⟨c, rfl⟩ : ∃ c, coords = [c] := by
    cases coords with
    | nil => simp at hlen
    | cons a t =>
      cases t with
      | nil => exact ⟨a, rfl⟩
      | cons b t' => simp at hlen
  exact ⟨c, hok⟩

/-- Witness for C4: a concrete one-row batch reduces to exactly one coordinate. -/
theorem c4_witness :
    ∃ c : ℚ × ℚ, reduce_dimensions [[(1 : ℚ), 2, 3]] none = Except.ok [c] :=
  c4_single_row_reduce [[(1 : ℚ), 2, 3]] rfl

/-- C8: on an empty batch (`n == 0`), `reduce_dimensions` fails with the reduction
error, for every (absent or explicit) perplexity argument. -/
theorem c8_empty_batch_reduce (perplexity : Option ℤ) :
    reduce_dimensions [] perplexity =
      Except.error ("ReductionError: no defined projection of an empty set") := rfl

/-- C5 counterexample: the empty string is a backend-selection value other than
`"local"` and `"gemini"`, yet `create_embeddings` does not fail on it — being falsy,
`method or EMBEDDING_METHOD` silently replaces it with the configured backend
(here `"local"`). -/
theorem c5_counterexample :
    create_embeddings (some "") "local" = Except.ok Backend.localModel ∧
    ("" : String) ≠ "local" ∧ ("" : String) ≠ "gemini" := by
  refine ⟨rfl, by decide, by decide⟩

/-- C5 amended: every explicit non-empty backend-selection value other than exactly
`"local"` or `"gemini"` makes `create_embeddings` fail with the configuration error
before any backend work, regardless of the configured default; a falsy selection
(`None` or the empty string) instead falls back to the configured value, which is
itself rejected whenever it is not exactly `"local"` or `"gemini"`. -/
theorem c5_invalid_backend_rejected (m cfg : String) (hm : m ≠ "")
    (h1 : m ≠ "local") (h2 : m ≠ "gemini") :
    (∃ e, create_embeddings (some m) cfg = Except.error e) ∧
    (cfg ≠ "local" → cfg ≠ "gemini" →
      ∃ e, create_embeddings none cfg = Except.error e) := by
  constructor
  · refine ⟨"Unsupported embedding method: " ++ m, ?_⟩
    simp [create_embeddings, hm, h1, h2]
  · intro hc1 hc2
    refine ⟨"Unsupported embedding method: " ++ cfg, ?_⟩
    simp [create_embeddings, hc1, hc2]

/-- Witness for the amended C5: the explicit value `"x"` is rejected whatever the
configuration, and the configured value `"y"` is rejected on fallback. -/
theorem c5_witness :
    (∃ e, create_embeddings (some "x") "y" = Except.error e) ∧
    (("y" : String) ≠ "local" → ("y" : String) ≠ "gemini" →
      ∃ e, create_embeddings none "y" = Except.error e) :=
  c5_invalid_backend_rejected "x" "y" (by decide) (by decide) (by decide)

/-- C2: the ranking step keeps exactly `min(keep, n)` rows: the selection has that
size, every selected pair is a genuine `(original index, score)` row of the input, the
output is ordered by strictly descending score with ties broken by ascending original
index, and every unselected row is dominated by every selected one (strictly smaller
score, or equal score and larger index) — i.e. the selected indices are exactly the
`min(keep, n)` largest-score indices under the stable tie-break. -/
theorem c2_rank_top_k {α : Type} [LinearOrder α] (scores : List α) (keep : ℕ)
    (hn : 1 ≤ scores.length) (hk : 1 ≤ keep) :
    (rank scores keep).length = min keep scores.length ∧
    (∀ p ∈ rank scores keep, p.1 < scores.length ∧ scores[p.1]? = some p.2) ∧
    (rank scores keep).Pairwise
      (fun a b => b.2 < a.2 ∨ (a.2 = b.2 ∧ a.1 < b.1)) ∧
    (∀ q : ℕ × α, scores[q.1]? = some q.2 → q ∉ rank scores keep →
      ∀ p ∈ rank scores keep, q.2 < p.2 ∨ (p.2 = q.2 ∧ p.1 < q.1)) := by
  refine ⟨rank_length scores keep, ?_, rank_pairwise_strict scores keep, ?_⟩
  · intro p hp
    have h := mem_rank hp
    exact ⟨(List.getElem?_eq_some.mp h).1, h⟩
  · intro q hq hq'
    exact rank_dominance hq hq'

/-- Witness for C2 on a concrete batch with a tie: scores `[1, 3, 3, 2]`, `keep = 2`
selects indices 1 and 2 (the two scores `3`, earlier index first). -/
theorem c2_witness :
    (rank [(1 : ℚ), 3, 3, 2] 2).length = min 2 ([(1 : ℚ), 3, 3, 2] : List ℚ).length ∧
    (∀ p ∈ rank [(1 : ℚ), 3, 3, 2] 2,
      p.1 < ([(1 : ℚ), 3, 3, 2] : List ℚ).length ∧
      ([(1 : ℚ), 3, 3, 2] : List ℚ)[p.1]? = some p.2) ∧
    (rank [(1 : ℚ), 3, 3, 2] 2).Pairwise
      (fun a b => b.2 < a.2 ∨ (a.2 = b.2 ∧ a.1 < b.1)) ∧
    (∀ q : ℕ × ℚ, ([(1 : ℚ), 3, 3, 2] : List ℚ)[q.1]? = some q.2 →
      q ∉ rank [(1 : ℚ), 3, 3, 2] 2 →
      ∀ p ∈ rank [(1 : ℚ), 3, 3, 2] 2, q.2 < p.2 ∨ (p.2 = q.2 ∧ p.1 < q.1)) :=
  c2_rank_top_k [(1 : ℚ), 3, 3, 2] 2 (by norm_num) (by norm_num)

/-- C7: scores are cosine similarities with the zero-on-zero-norm convention, so
ranking against an all-zero query raises no division error: every score is `0.0`, and
the ranking degenerates to the original index order (the stable sort is the identity,
so the kept rows are the first `min(keep, n)` in original order). -/
theorem c7_zero_query_rank (q : List ℝ) (batch : List (List ℝ)) (keep : ℕ)
    (hq : normSq q = 0) :
    (∀ v ∈ batch, cossim v q = 0) ∧
    rank (batch.map (fun v => cossim v q)) keep =
      (batch.map (fun v => cossim v q)).enum.take (min keep batch.length) := by
  have hzero : ∀ v : List ℝ, cossim v q = 0 := by
    intro v
    rw [cossim, if_pos (Or.inr hq)]
  constructor
  · intro v _
    exact hzero v
  · have hsorted : List.Sorted (@rankRel ℝ _)
        ((batch.map (fun v => cossim v q)).enum) := by
      apply List.pairwise_iff_getElem.mpr
      intro i j hi hj hij
      rw [List.enum_length, List.length_map] at hi hj
      rw [List.getElem_enum, List.getElem_enum, List.getElem_map, List.getElem_map]
      exact Or.inr ⟨by rw [hzero, hzero], by
        simp only []
        omega⟩
    rw [rank_eq_take, sortPairs, hsorted.insertionSort_eq, List.length_map]

/-- Witness for C7: a two-row batch ranked against the zero query; all scores are zero
and the ranking is the identity truncation. -/
theorem c7_witness :
    (∀ v ∈ [[(1 : ℝ), 0], [(0 : ℝ), 1]], cossim v [(0 : ℝ), 0] = 0) ∧
    rank ([[(1 : ℝ), 0], [(0 : ℝ), 1]].map (fun v => cossim v [(0 : ℝ), 0])) 5 =
      ([[(1 : ℝ), 0], [(0 : ℝ), 1]].map (fun v => cossim v [(0 : ℝ), 0])).enum.take
        (min 5 ([[(1 : ℝ), 0], [(0 : ℝ), 1]] : List (List ℝ)).length) :=
  c7_zero_query_rank [(0 : ℝ), 0] [[(1 : ℝ), 0], [(0 : ℝ), 1]] 5
    (by norm_num [normSq, dot])

/-- C9: the same ranked index list subsets both the record table and the vector batch
(`app.py` lines 238–242), so records and vectors stay aligned index-for-index: both
gathered sequences have length `k = min(keep, n)`, position `j` of each comes from the
same original index, every kept index is in range of both tables, and the fresh
reduction over the `k`-row subset succeeds with exactly `k` coordinate pairs. -/
theorem c9_subset_alignment {α ρ : Type} [LinearOrder α]
    (records : List ρ) (batch : List (List ℚ)) (scores : List α)
    (dr : ρ) (dv : List ℚ) (keep : ℕ)
    (hrec : records.length = scores.length)
    (hbatch : batch.length = scores.length)
    (hn : 1 ≤ scores.length) (hk : 1 ≤ keep) :
    (rankIndices scores keep).length = min keep scores.length ∧
    (∀ i ∈ rankIndices scores keep, i < records.length ∧ i < batch.length) ∧
    (gather records dr (rankIndices scores keep)).length = min keep scores.length ∧
    (gather batch dv (rankIndices scores keep)).length = min keep scores.length ∧
    (∀ j, j < min keep scores.length →
      (gather records dr (rankIndices scores keep)).getD j dr =
        records.getD ((rankIndices scores keep).getD j 0) dr ∧
      (gather batch dv (rankIndices scores keep)).getD j dv =
        batch.getD ((rankIndices scores keep).getD j 0) dv) ∧
    (∃ coords, reduce_dimensions (gather batch dv (rankIndices scores keep)) none =
        Except.ok coords ∧ coords.length = min keep scores.length) := by
  have hIlen : (rankIndices scores keep).length = min keep scores.length := by
    rw [rankIndices, List.length_map, rank_length]
  have hvalid : ∀ i ∈ rankIndices scores keep, i < scores.length := by
    intro i hi
    rcases List.mem_map.mp hi with ⟨p, hp, rfl⟩
    exact (List.getElem?_eq_some.mp (mem_rank hp)).1
  refine ⟨hIlen, ?_, ?_, ?_, ?_, ?_⟩
  · intro i hi
    have := hvalid i hi
    omega
  · rw [gather_length, hIlen]
  · rw [gather_length, hIlen]
  · intro j hj
    have hj' : j < (rankIndices scores keep).length := by omega
    exact ⟨gather_getD records dr _ j hj', gather_getD batch dv _ j hj'⟩
  · have hglen : (gather batch dv (rankIndices scores keep)).length =
        min keep scores.length := by rw [gather_length, hIlen]
    obtain ⟨coords, hok, hclen⟩ :=
      reduce_dimensions_ok (gather batch dv (rankIndices scores keep))
        (by omega) none
    exact ⟨coords, hok, by omega⟩

/-- Witness for C9: three records and vectors, scores `[2, 1, 3]`, keeping 2. -/
theorem c9_witness :
    (rankIndices [(2 : ℚ), 1, 3] 2).length = min 2 ([(2 : ℚ), 1, 3] : List ℚ).length ∧
    (∀ i ∈ rankIndices [(2 : ℚ), 1, 3] 2,
      i < (["a", "b", "c"] : List String).length ∧
      i < ([[(1 : ℚ)], [(2 : ℚ)], [(3 : ℚ)]] : List (List ℚ)).length) ∧
    (gather ["a", "b", "c"] "z" (rankIndices [(2 : ℚ), 1, 3] 2)).length =
      min 2 ([(2 : ℚ), 1, 3] : List ℚ).length ∧
    (gather [[(1 : ℚ)], [(2 : ℚ)], [(3 : ℚ)]] [] (rankIndices [(2 : ℚ), 1, 3] 2)).length =
      min 2 ([(2 : ℚ), 1, 3] : List ℚ).length ∧
    (∀ j, j < min 2 ([(2 : ℚ), 1, 3] : List ℚ).length →
      (gather ["a", "b", "c"] "z" (rankIndices [(2 : ℚ), 1, 3] 2)).getD j "z" =
        (["a", "b", "c"] : List String).getD
          ((rankIndices [(2 : ℚ), 1, 3] 2).getD j 0) "z" ∧
      (gather [[(1 : ℚ)], [(2 : ℚ)], [(3 : ℚ)]] [] (rankIndices [(2 : ℚ), 1, 3] 2)).getD
          j [] =
        ([[(1 : ℚ)], [(2 : ℚ)], [(3 : ℚ)]] : List (List ℚ)).getD
          ((rankIndices [(2 : ℚ), 1, 3] 2).getD j 0) []) ∧
    (∃ coords,
      reduce_dimensions (gather [[(1 : ℚ)], [(2 : ℚ)], [(3 : ℚ)]] []
        (rankIndices [(2 : ℚ), 1, 3] 2)) none = Except.ok coords ∧
      coords.length = min 2 ([(2 : ℚ), 1, 3] : List ℚ).length) :=
  c9_subset_alignment ["a", "b", "c"] [[(1 : ℚ)], [(2 : ℚ)], [(3 : ℚ)]]
    [(2 : ℚ), 1, 3] "z" [] 2 rfl rfl (by norm_num) (by norm_num)

/-- C6 counterexample: a batch whose rows all have nonzero norm, with the query equal
to row 1 — but row 0 is a positive scalar multiple of the query, so it also scores
exactly 1 and the stable tie-break places index 0 first, not the query's row index 1.
The claim as stated (nonzero norms suffice) is therefore false. -/
theorem c6_counterexample :
    ([[(1 : ℝ)], [(2 : ℝ)]] : List (List ℝ))[1]? = some [(2 : ℝ)] ∧
    normSq [(1 : ℝ)] ≠ 0 ∧ normSq [(2 : ℝ)] ≠ 0 ∧
    (rank ([[(1 : ℝ)], [(2 : ℝ)]].map (fun v => cossim v [(2 : ℝ)])) 2).head? =
      some (0, 1) ∧
    (rank ([[(1 : ℝ)], [(2 : ℝ)]].map (fun v => cossim v [(2 : ℝ)])) 2).head? ≠
      some (1, 1) := by
  have h1 : normSq [(1 : ℝ)] = 1 := by norm_num [normSq, dot]
  have h2 : normSq [(2 : ℝ)] = 4 := by norm_num [normSq, dot]
  have hd : dot [(1 : ℝ)] [(2 : ℝ)] = 2 := by norm_num [dot]
  have hc12 : cossim [(1 : ℝ)] [(2 : ℝ)] = 1 := by
    rw [cossim, if_neg (by rw [h1, h2]; norm_num), h1, h2, hd, Real.sqrt_one,
      show (4 : ℝ) = 2 ^ 2 by norm_num, Real.sqrt_sq (by norm_num : (0 : ℝ) ≤ 2)]
    norm_num
  have hc22 : cossim [(2 : ℝ)] [(2 : ℝ)] = 1 := cossim_self _ (by rw [h2]; norm_num)
  have hmap : [[(1 : ℝ)], [(2 : ℝ)]].map (fun v => cossim v [(2 : ℝ)]) =
      [(1 : ℝ), 1] := by
    rw [List.map_cons, List.map_cons, List.map_nil, hc12, hc22]
  have hsorted : List.Sorted (@rankRel ℝ _) (([(1 : ℝ), 1] : List ℝ).enum) := by
    show List.Sorted rankRel [(0, (1 : ℝ)), (1, 1)]
    refine List.sorted_cons.mpr ⟨?_, List.sorted_singleton _⟩
    intro b hb
    rw [List.mem_singleton] at hb
    rw [hb]
    exact Or.inr ⟨rfl, by norm_num⟩
  have hrank : rank ([(1 : ℝ), 1] : List ℝ) 2 = [(0, (1 : ℝ)), (1, 1)] := by
    rw [rank_eq_take, sortPairs, hsorted.insertionSort_eq]
    rfl
  rw [hmap, hrank]
  refine ⟨rfl, by rw [h1]; norm_num, by rw [h2]; norm_num, rfl, ?_⟩
  intro h
  have := Option.some.inj h
  have h0 : (0 : ℕ) = 1 := congrArg Prod.fst this
  exact absurd h0 (by norm_num)

/-- C6 amended: when the query equals row `k` of the batch, all rows have nonzero
norm, and additionally no earlier row `i < k` has cosine similarity exactly 1 with the
query (no earlier duplicate/positive multiple of the query), the ranking places index
`k` first with score exactly 1. -/
theorem c6_query_row_first (batch : List (List ℝ)) (q : List ℝ) (keep k : ℕ)
    (hkq : batch[k]? = some q)
    (hnz : ∀ v ∈ batch, normSq v ≠ 0)
    (hkeep : 1 ≤ keep)
    (hfirst : ∀ i, i < k → ∀ v, batch[i]? = some v → cossim v q ≠ 1) :
    (rank (batch.map (fun v => cossim v q)) keep).head? = some (k, 1) := by
  have hqmem : q ∈ batch := List.getElem?_mem hkq
  have hqnz : normSq q ≠ 0 := hnz q hqmem
  apply rank_head_max hkeep
  · rw [List.getElem?_map, hkq, Option.map_some']
    rw [cossim_self q hqnz]
  · intro x hx
    rcases List.mem_map.mp hx with ⟨v, _, rfl⟩
    exact cossim_le_one v q
  · intro i hi x hx
    rw [List.getElem?_map] at hx
    cases hb : batch[i]? with
    | none => rw [hb] at hx; exact absurd hx (by simp)
    | some v =>
      rw [hb, Option.map_some'] at hx
      have hxv : x = cossim v q := (Option.some.inj hx).symm
      rw [hxv]
      exact hfirst i hi v hb

/-- Witness for the amended C6: batch `[[2, 0], [0, 3]]`, query `[0, 3]` (row 1):
row 0 is orthogonal to the query (similarity 0, not 1), so row index 1 is ranked
first with score 1. -/
theorem c6_witness :
    (rank ([[(2 : ℝ), 0], [(0 : ℝ), 3]].map
      (fun v => cossim v [(0 : ℝ), 3])) 2).head? = some (1, 1) := by
  have hn0 : normSq [(2 : ℝ), 0] = 4 := by norm_num [normSq, dot]
  have hn1 : normSq [(0 : ℝ), 3] = 9 := by norm_num [normSq, dot]
  apply c6_query_row_first [[(2 : ℝ), 0], [(0 : ℝ), 3]] [(0 : ℝ), 3] 2 1 rfl
  · intro v hv
    rw [List.mem_cons, List.mem_singleton] at hv
    rcases hv with h | h <;> rw [h]
    · rw [hn0]; norm_num
    · rw [hn1]; norm_num
  · norm_num
  · intro i hi v hv
    have hi0 : i = 0 := by omega
    rw [hi0] at hv
    have hv' : v = [(2 : ℝ), 0] := by
      have : some v = some [(2 : ℝ), 0] := by rw [← hv]; rfl
      exact Option.some.inj this
    rw [hv', cossim, if_neg (by rw [hn0, hn1]; norm_num)]
    have hd : dot [(2 : ℝ), 0] [(0 : ℝ), 3] = 0 := by norm_num [dot]
    rw [hd, zero_div]
    norm_num

end GithubExplorer
